import Mathlib

/-!
Verification development for the `ucd-tool.py` table generator of
seshat-unicode.  Pure functions below embed the script's logic; the parts of
the `ucd.collections` module (imported by the script but not present in the
repository snapshot) are modelled from the specification and marked as such.
-/

namespace UcdTool

/-- Modelled from the spec: `CodePointRange` comes from `ucd.collections`,
which is not in the repository snapshot.  The spec defines a Code Point Range
as an inclusive interval [start, end] of code points with start ≤ end. -/
structure CodePointRange where
  start : Nat
  «end» : Nat
deriving DecidableEq

/-- Modelled from the spec: the containment test `cp in rng` used by
`na_table_rs`; inclusive interval membership. -/
def CodePointRange.contains (r : CodePointRange) (cp : Nat) : Bool :=
  decide (r.start ≤ cp) && decide (cp ≤ r.«end»)

/-- Size of the code point domain: code points are integers in [0, 0x10FFFF]. -/
def domainSize : Nat := 0x110000

/-- First value assigned to `cp` by a (range, value) list, scanning in order;
`none` when no range covers `cp`. -/
def rangeLookup (data : List (CodePointRange × String)) (cp : Nat) : Option String :=
  match data with
  | [] => none
  | (r, v) :: rest => if r.contains cp then some v else rangeLookup rest cp

/-- Modelled from the spec: the value the patched Range Mapping assigns to a
code point.  The Patch Set wins on overlap, and code points covered by no
range resolve to the Default Value. -/
def patchedValueAt (data missing : List (CodePointRange × String))
    (dflt : String) (cp : Nat) : String :=
  match rangeLookup missing cp with
  | some v => v
  | none => (rangeLookup data cp).getD dflt

/-- A Range Mapping is valid when its ranges are sorted by start and pairwise
non-overlapping (each range ends strictly before the next begins). -/
def validMapping (data : List (CodePointRange × String)) : Prop :=
  List.Chain' (fun a b => a.1.«end» < b.1.start) data

/-- Modelled from the spec: the Two-Stage Table record built by
`TwoStageTable.make` in `ucd.collections` — the pair (Stage-1, Stage-2) plus
the block size and Default Value used to build it. -/
structure TwoStageTable where
  prop : String
  blockSize : Nat
  defaultVal : String
  stage1 : List Nat
  stage2 : List (List String)
deriving DecidableEq

/-- Modelled from the spec: Stage-2 deduplication of block contents,
preserving first-seen order for determinism. -/
def dedupFirstSeen (blocks : List (List String)) : List (List String) :=
  blocks.foldl (fun acc b => if b ∈ acc then acc else acc ++ [b]) []

/-- Index of the first occurrence of a block in the Stage-2 list: the dense
slot id assigned to a deduplicated block content. -/
def slotId (b : List String) : List (List String) → Nat
  | [] => 0
  | c :: rest => if c = b then 0 else slotId b rest + 1

/-- Modelled from the spec: the Block Content of block `i` — the ordered
sequence of values of its code points, each unassigned slot resolved via the
Default Value after patch merge. -/
def blockContent (data missing : List (CodePointRange × String))
    (dflt : String) (bs i : Nat) : List String :=
  (List.range bs).map (fun j => patchedValueAt data missing dflt (i * bs + j))

/-- Modelled from the spec: the full partition of the code point domain into
⌈domain size / block size⌉ blocks, in domain order. -/
def makeBlocks (data missing : List (CodePointRange × String))
    (dflt : String) (bs : Nat) : List (List String) :=
  (List.range ((domainSize + bs - 1) / bs)).map
    (blockContent data missing dflt bs)

/-- Modelled from the spec: `TwoStageTable.make` from `ucd.collections`
(§4.1 Table Builder): apply patch overrides on top of the mapping, partition
the domain into blocks, compute each Block Content, deduplicate the contents
into Stage-2 in first-seen order, and record each block's slot id in
Stage-1. -/
def TwoStageTable.make (prop : String) (data : List (CodePointRange × String))
    (blockSize : Nat) (default_prop : String)
    (missing : List (CodePointRange × String)) : TwoStageTable :=
  ⟨prop, blockSize, default_prop,
    (makeBlocks data missing default_prop blockSize).map
      (fun b => slotId b
        (dedupFirstSeen (makeBlocks data missing default_prop blockSize))),
    dedupFirstSeen (makeBlocks data missing default_prop blockSize)⟩

/-- Lookup on a Two-Stage Table:
`value(cp) = Stage-2[Stage-1[cp div block_size]][cp mod block_size]`. -/
def TwoStageTable.lookup (t : TwoStageTable) (cp : Nat) : String :=
  (t.stage2.getD (t.stage1.getD (cp / t.blockSize) 0) []).getD
    (cp % t.blockSize) t.defaultVal

/-- Modelled from the spec: the minimal byte width that can address a given
number of distinct Stage-2 slots (grows from 1 to 2+ bytes). -/
def indexWidth (slots : Nat) : Nat :=
  if slots ≤ 0x100 then 1 else if slots ≤ 0x10000 then 2 else 3

/-- Modelled from the spec: the encoded byte cost of a Two-Stage Table,
`len(Stage-1) * index_width + len(Stage-2) * block_size * repr_size`. -/
def TwoStageTable.table_bytes (t : TwoStageTable) (repr_size : Nat) : Nat :=
  t.stage1.length * indexWidth t.stage2.length +
    t.stage2.length * t.blockSize * repr_size

/-- The candidate block sizes tried by `select_minimal_tst`, in the iteration
order of its `tables` dict literal. -/
def candidate_block_sizes : List Nat := [64, 128, 256, 512]

/-- Embedding of `select_minimal_tst` from `ucd-tool.py`: builds one table per candidate
block size and returns the one minimizing `table_bytes` (Python `min` keeps
the earliest minimum, hence the smallest block size on ties). -/
def select_minimal_tst (prop : String) (data : List (CodePointRange × String))
    (repr_size : Nat) (default_prop : String)
    (missing : List (CodePointRange × String)) : TwoStageTable :=
  match candidate_block_sizes.map
      (fun bs => TwoStageTable.make prop data bs default_prop missing) with
  | [] => TwoStageTable.make prop data 64 default_prop missing
  | t :: ts =>
    ts.foldl
      (fun best u =>
        if u.table_bytes repr_size < best.table_bytes repr_size then u else best) t

/-- Embedding of `find_key_by_value` from `ucd-tool.py`: first key of the alias table whose
value equals `val`; the Python function falls off the end and returns `None`
when no entry matches. -/
def find_key_by_value (d : List (String × String)) (val : String) : Option String :=
  match d with
  | [] => none
  | (k, v) :: rest => if v = val then some k else find_key_by_value rest val

/-- Embedding of `data_value_as_abbr` from `ucd-tool.py`: converts each (range, full_name)
pair to (range, abbr_name) by alias lookup.  The second component is the
(possibly `None`) result of `find_key_by_value`, passed through unchecked. -/
def data_value_as_abbr (data : List (CodePointRange × String))
    (aliases : List (String × String)) : List (CodePointRange × Option String) :=
  data.map (fun pair => (pair.1, find_key_by_value aliases pair.2))

/-- Embedding of `patch_data` from `ucd-tool.py`: builds the Missing patch set by alias
lookup per entry; the (possibly `None`) alias is appended unchecked.  The
`Missing` container itself lives in `ucd.collections` (not in the snapshot)
and is modelled, per the spec, as the ordered list of appended pairs. -/
def patch_data (d : List (CodePointRange × String))
    (aliases : List (String × String)) : List (CodePointRange × Option String) :=
  d.map (fun pair => (pair.1, find_key_by_value aliases pair.2))

/-- Embedding of `make_data` from `ucd-tool.py`: the parsed (range, value) pairs sorted by
`key=lambda x: x[0]`.  Modelled from the spec: the comparison on
`CodePointRange` lives in `ucd.collections` (not in the snapshot); the spec
orders ranges by their start code point.  Python `sorted` is a stable merge
sort, embedded as `List.mergeSort`. -/
def make_data (d : List (CodePointRange × String)) : List (CodePointRange × String) :=
  d.mergeSort (fun a b => decide (a.1.start ≤ b.1.start))

/-- Embedding of `make_grouped_data` from `ucd-tool.py`: per property, the ranges are paired
with the value "true" and sorted by `key=lambda x: x[0]` (range comparison
modelled from the spec as ordering by start, as in `make_data`). -/
def make_grouped_data (d : List (String × List CodePointRange)) :
    List (String × List (CodePointRange × String)) :=
  d.map (fun pv =>
    (pv.1, (pv.2.map (fun r => (r, "true"))).mergeSort
      (fun a b => decide (a.1.start ≤ b.1.start))))

/-- Embedding of `derived_na_ranges` from `ucd-tool.py` (Unicode Table 4-8): ranges whose
Name is derived from the code point; `CodePointRange.parse` (not in the
snapshot) is modelled as reading the two inclusive hex bounds. -/
def derived_na_ranges : List CodePointRange :=
  [⟨0xAC00, 0xD7A3⟩,
   ⟨0x3400, 0x4DBF⟩,
   ⟨0x4E00, 0x9FFF⟩,
   ⟨0x20000, 0x2A6DF⟩,
   ⟨0x2A700, 0x2B739⟩,
   ⟨0x2B740, 0x2B81D⟩,
   ⟨0x2B820, 0x2CEA1⟩,
   ⟨0x2CEB0, 0x2EBE0⟩,
   ⟨0x2EBF0, 0x2EE5D⟩,
   ⟨0x30000, 0x3134A⟩,
   ⟨0x31350, 0x323AF⟩,
   ⟨0x17000, 0x187F7⟩,
   ⟨0x18D00, 0x18D08⟩,
   ⟨0x18B00, 0x18CD5⟩,
   ⟨0x1B170, 0x1B2FB⟩,
   ⟨0xF900, 0xFA6D⟩,
   ⟨0xFA70, 0xFAD9⟩,
   ⟨0x2F800, 0x2FA1D⟩]

/-- The entry list of the `NA_MAP` table emitted by `na_table_rs`: for each
(range, name) input entry the loop sets `ignore` by scanning
`derived_na_ranges` and emits `(range.start, name)` only when `ignore` stayed
false. -/
def na_table_entries (d : List (CodePointRange × String)) : List (Nat × String) :=
  match d with
  | [] => []
  | (r, name) :: rest =>
    let ignore := derived_na_ranges.foldl
      (fun ig rng => if rng.contains r.start then true else ig) false
    if ignore = false then (r.start, name) :: na_table_entries rest
    else na_table_entries rest

/-- Numeric value of one hex digit, as accepted by Python `int(x, 16)` on the
well-formed UCD data (uppercase hex in practice). -/
def hexDigitVal (c : Char) : Nat :=
  if '0' ≤ c ∧ c ≤ '9' then c.toNat - 48
  else if 'A' ≤ c ∧ c ≤ 'F' then c.toNat - 55
  else if 'a' ≤ c ∧ c ≤ 'f' then c.toNat - 87
  else 0

/-- Python `int(s, 16)` on a hex token. -/
def hexToNat (s : String) : Nat :=
  s.data.foldl (fun acc c => 16 * acc + hexDigitVal c) 0

/-- Python `s.split(' ')`: cuts the character list at every space. -/
def splitSpaces : List Char → List Char → List String
  | acc, [] => [String.mk acc.reverse]
  | acc, ' ' :: rest => String.mk acc.reverse :: splitSpaces [] rest
  | acc, c :: rest => splitSpaces (c :: acc) rest

/-- Python `s.startswith('<')`: whether the first character is `<`. -/
def startsWithTag (s : String) : Bool :=
  match s.data with
  | '<' :: _ => true
  | _ => false

/-- The character sequence denoted by a space-separated list of hex code
points: both `DM_MAP` (via `\u{...}` escapes of the tokens) and `RDM_MAP`
(via `chr(int(x, 16))`) denote exactly this string. -/
def decodeDm (s : String) : String :=
  String.mk ((splitSpaces [] s.data).map (fun t => Char.ofNat (hexToNat t)))

/-- The `re.sub` removal of the compatibility tag applied by `dm_map_rs` when
the decomposition field starts with `<`: the UCD `dm` field contains at most
one tag, delimited by the only occurrence of the two characters greater-than
and space, so the greedy regex removes everything through that occurrence. -/
def stripTagAux : List Char → List Char
  | [] => []
  | '>' :: ' ' :: rest => rest
  | _ :: rest => stripTagAux rest

/-- Tag removal on strings (see `stripTagAux`). -/
def stripTag (s : String) : String :=
  String.mk (stripTagAux s.data)

/-- The entry list of the forward `DM_MAP` table emitted by `dm_map_rs`:
entries with an empty decomposition are skipped, a leading compatibility tag
is stripped, and the remaining hex tokens are emitted as the decomposition
string of the code point. -/
def dm_map_entries (ud : List (Nat × String)) : List (Nat × String) :=
  match ud with
  | [] => []
  | (cp, dm) :: rest =>
    if dm = "" then dm_map_entries rest
    else
      (cp, decodeDm (if startsWithTag dm then stripTag dm else dm)) ::
        dm_map_entries rest

/-- The entry list of the reverse `RDM_MAP` table emitted by `dm_map_rs`:
entries with an empty or compatibility-tagged decomposition are skipped, and
the collected (decomposition string, code point) pairs are sorted by
`key=lambda x: x[0]` (Python `sorted`, embedded as stable `List.mergeSort`). -/
def rdm_entries (ud : List (Nat × String)) : List (String × Nat) :=
  (ud.filterMap (fun pair =>
    if pair.2 = "" then none
    else if startsWithTag pair.2 then none
    else some (decodeDm pair.2, pair.1))).mergeSort
    (fun a b => decide (a.1 ≤ b.1))

/-- The grouped emoji emission loop of `ucd-tool.py` `__main__`, carrying the
`enumerate` index: each property is emitted with the flag
`use = (i == 0)` that marks the group's primary accessor. -/
def emoji_emission_flags_from (i : Nat) : List String → List (String × Bool)
  | [] => []
  | p :: rest => (p, i == 0) :: emoji_emission_flags_from (i + 1) rest

/-- The (property, primary-flag) pairs produced by the grouped emoji emission
loop, starting from `enumerate` index 0. -/
def emoji_emission_flags (props : List String) : List (String × Bool) :=
  emoji_emission_flags_from 0 props

theorem make_blockSize (prop : String) (data : List (CodePointRange × String))
    (bs : Nat) (dflt : String) (missing : List (CodePointRange × String)) :
    (TwoStageTable.make prop data bs dflt missing).blockSize = bs := rfl

theorem foldl_dedup_mem (b : List String) :
    ∀ (l acc : List (List String)), b ∈ acc ∨ b ∈ l →
      b ∈ l.foldl (fun acc c => if c ∈ acc then acc else acc ++ [c]) acc := by
  intro l
  induction l with
  | nil =>
    intro acc h
    simpa using h.resolve_right (by simp)
  | cons c cs ih =>
    intro acc h
    simp only [List.foldl_cons]
    by_cases hc : c ∈ acc
    · simp only [if_pos hc]
      apply ih
      rcases h with h | h
      · exact Or.inl h
      · rcases List.mem_cons.mp h with rfl | h
        · exact Or.inl hc
        · exact Or.inr h
    · simp only [if_neg hc]
      apply ih
      rcases h with h | h
      · exact Or.inl (by simp [h])
      · rcases List.mem_cons.mp h with rfl | h
        · exact Or.inl (by simp)
        · exact Or.inr h

theorem mem_dedupFirstSeen {b : List String} {l : List (List String)}
    (h : b ∈ l) : b ∈ dedupFirstSeen l :=
  foldl_dedup_mem b l [] (Or.inr h)

theorem slotId_lt_length {b : List String} {l : List (List String)}
    (h : b ∈ l) : slotId b l < l.length := by
  induction l with
  | nil => simp at h
  | cons c cs ih =>
    simp only [slotId]
    by_cases hc : c = b
    · simp [hc]
    · rcases List.mem_cons.mp h with rfl | h
      · exact absurd rfl hc
      · simpa [hc, Nat.succ_lt_succ_iff] using ih h

theorem getD_slotId {b : List String} {l : List (List String)}
    (h : b ∈ l) : l.getD (slotId b l) [] = b := by
  induction l with
  | nil => simp at h
  | cons c cs ih =>
    simp only [slotId]
    by_cases hc : c = b
    · simp [hc]
    · rcases List.mem_cons.mp h with rfl | h
      · exact absurd rfl hc
      · simpa [hc] using ih h

theorem getD_of_lt {α : Type} (l : List α) (i : Nat) (d : α) (h : i < l.length) :
    l.getD i d = l.get ⟨i, h⟩ := by
  simp [List.getD_eq_getElem?_getD, List.getElem?_eq_getElem h]

theorem select_spec (prop : String) (data : List (CodePointRange × String))
    (repr_size : Nat) (default_prop : String)
    (missing : List (CodePointRange × String)) :
    (select_minimal_tst prop data repr_size default_prop missing).blockSize ∈
        candidate_block_sizes ∧
      select_minimal_tst prop data repr_size default_prop missing =
        TwoStageTable.make prop data
          (select_minimal_tst prop data repr_size default_prop
            missing).blockSize default_prop missing := by
  simp only [select_minimal_tst, candidate_block_sizes, List.map_cons,
    List.map_nil, List.foldl_cons, List.foldl_nil]
  split_ifs <;> exact ⟨by rw [make_blockSize]; decide, rfl⟩

theorem div_lt_numBlocks {D bs cp : Nat} (hbs : 0 < bs) (hcp : cp < D) :
    cp / bs < (D + bs - 1) / bs := by
  have h1 : cp / bs ≤ (D - 1) / bs := Nat.div_le_div_right (by omega)
  have h2 : (D - 1 + bs) / bs = (D - 1) / bs + 1 := Nat.add_div_right _ hbs
  have h3 : D + bs - 1 = D - 1 + bs := by omega
  rw [h3]
  omega

theorem make_lookup_eq (prop : String)
    (data missing : List (CodePointRange × String)) (dflt : String)
    (bs cp : Nat) (hbs : 0 < bs) (hcp : cp < domainSize) :
    (TwoStageTable.make prop data bs dflt missing).lookup cp =
      patchedValueAt data missing dflt cp := by
  have hnb : cp / bs < (domainSize + bs - 1) / bs := div_lt_numBlocks hbs hcp
  have hmod : cp % bs < bs := Nat.mod_lt _ hbs
  have hlen1 : ((makeBlocks data missing dflt bs).map
      (fun b => slotId b (dedupFirstSeen (makeBlocks data missing dflt bs)))).length =
      (domainSize + bs - 1) / bs := by
    simp [makeBlocks]
  have hlen1' : cp / bs < ((makeBlocks data missing dflt bs).map
      (fun b => slotId b (dedupFirstSeen (makeBlocks data missing dflt bs)))).length := by
    rw [hlen1]; exact hnb
  show ((dedupFirstSeen (makeBlocks data missing dflt bs)).getD
      (((makeBlocks data missing dflt bs).map
        (fun b => slotId b (dedupFirstSeen (makeBlocks data missing dflt bs)))).getD
          (cp / bs) 0) []).getD (cp % bs) dflt =
    patchedValueAt data missing dflt cp
  rw [getD_of_lt _ _ _ hlen1']
  have hget1 : (((makeBlocks data missing dflt bs).map
      (fun b => slotId b (dedupFirstSeen (makeBlocks data missing dflt bs)))).get
        ⟨cp / bs, hlen1'⟩) =
      slotId (blockContent data missing dflt bs (cp / bs))
        (dedupFirstSeen (makeBlocks data missing dflt bs)) := by
    simp [List.get_eq_getElem, makeBlocks, hnb]
  rw [hget1]
  have hmem : blockContent data missing dflt bs (cp / bs) ∈
      makeBlocks data missing dflt bs :=
    List.mem_map.mpr ⟨cp / bs, List.mem_range.mpr hnb, rfl⟩
  rw [getD_slotId (mem_dedupFirstSeen hmem)]
  have hlen2 : cp % bs < (blockContent data missing dflt bs (cp / bs)).length := by
    simpa [blockContent] using hmod
  rw [getD_of_lt _ _ _ hlen2]
  have hget2 : (blockContent data missing dflt bs (cp / bs)).get ⟨cp % bs, hlen2⟩ =
      patchedValueAt data missing dflt (cp / bs * bs + cp % bs) := by
    simp [List.get_eq_getElem, blockContent, hmod]
  rw [hget2, Nat.mul_comm, Nat.div_add_mod]

/-- C2: for every valid Range Mapping, Patch Set, Default Value, candidate
block size and code point cp in [0, 0x10FFFF], `lookup(cp)` on the built
Two-Stage Table (`Stage-2[Stage-1[cp div bs]][cp mod bs]`) equals the value
the patched Range Mapping assigns to cp when some range covers it, and the
Default Value otherwise. -/
theorem tst_lookup_coverage (prop : String)
    (data missing : List (CodePointRange × String)) (dflt : String)
    (bs cp : Nat) (_hv : validMapping data) (hbs : bs ∈ candidate_block_sizes)
    (hcp : cp ≤ 0x10FFFF) :
    (TwoStageTable.make prop data bs dflt missing).lookup cp =
        patchedValueAt data missing dflt cp ∧
      (rangeLookup missing cp = none → rangeLookup data cp = none →
        (TwoStageTable.make prop data bs dflt missing).lookup cp = dflt) := by
  have hbs0 : 0 < bs := by
    rcases (by simpa [candidate_block_sizes] using hbs :
        bs = 64 ∨ bs = 128 ∨ bs = 256 ∨ bs = 512) with rfl | rfl | rfl | rfl <;>
      norm_num
  have hcp' : cp < domainSize := by
    simp only [domainSize]; omega
  have h1 := make_lookup_eq prop data missing dflt bs cp hbs0 hcp'
  refine ⟨h1, fun hm hd => ?_⟩
  rw [h1]
  simp [patchedValueAt, hm, hd]

theorem tst_lookup_coverage_witness :
    (TwoStageTable.make "Gc" [(⟨0, 2⟩, "A"), (⟨5, 5⟩, "B")] 64 "Z"
        [(⟨1, 1⟩, "C")]).lookup 5 =
        patchedValueAt [(⟨0, 2⟩, "A"), (⟨5, 5⟩, "B")] [(⟨1, 1⟩, "C")] "Z" 5 ∧
      (rangeLookup [(⟨1, 1⟩, "C")] 5 = none →
        rangeLookup [(⟨0, 2⟩, "A"), (⟨5, 5⟩, "B")] 5 = none →
        (TwoStageTable.make "Gc" [(⟨0, 2⟩, "A"), (⟨5, 5⟩, "B")] 64 "Z"
          [(⟨1, 1⟩, "C")]).lookup 5 = "Z") :=
  tst_lookup_coverage "Gc" [(⟨0, 2⟩, "A"), (⟨5, 5⟩, "B")] [(⟨1, 1⟩, "C")] "Z"
    64 5 (by simp [validMapping]) (by decide) (by decide)

/-- C1: for every property name, range-value list and repr size,
`select_minimal_tst` builds one table per candidate block size in exactly
{64, 128, 256, 512} and returns a table whose `table_bytes` is ≤ the
`table_bytes` of every other candidate it evaluated. -/
theorem select_minimal_tst_minimal (prop : String)
    (data : List (CodePointRange × String)) (repr_size : Nat)
    (default_prop : String) (missing : List (CodePointRange × String))
    (bs : Nat) (hbs : bs ∈ candidate_block_sizes) :
    (select_minimal_tst prop data repr_size default_prop missing).table_bytes
        repr_size ≤
      (TwoStageTable.make prop data bs default_prop missing).table_bytes
        repr_size ∧
    ∃ b0 ∈ candidate_block_sizes,
      select_minimal_tst prop data repr_size default_prop missing =
        TwoStageTable.make prop data b0 default_prop missing := by
  have hbs4 : bs = 64 ∨ bs = 128 ∨ bs = 256 ∨ bs = 512 := by
    simpa [candidate_block_sizes] using hbs
  simp only [select_minimal_tst, candidate_block_sizes, List.map_cons,
    List.map_nil, List.foldl_cons, List.foldl_nil]
  split_ifs <;>
    refine ⟨by rcases hbs4 with rfl | rfl | rfl | rfl <;> omega, ?_⟩ <;>
    first
      | exact ⟨64, by decide, rfl⟩
      | exact ⟨128, by decide, rfl⟩
      | exact ⟨256, by decide, rfl⟩
      | exact ⟨512, by decide, rfl⟩

theorem select_minimal_tst_minimal_witness :
    (select_minimal_tst "Gc" [] 1 "Z" []).table_bytes 1 ≤
      (TwoStageTable.make "Gc" [] 64 "Z" []).table_bytes 1 ∧
    ∃ b0 ∈ candidate_block_sizes,
      select_minimal_tst "Gc" [] 1 "Z" [] =
        TwoStageTable.make "Gc" [] b0 "Z" [] :=
  select_minimal_tst_minimal "Gc" [] 1 "Z" [] 64 (by decide)

/-- C3: when two or more candidate block sizes reach the same minimal
`table_bytes`, `select_minimal_tst` returns the table built with the smallest
such block size (Python `min` keeps the earliest of the tied candidates, and
the candidates are iterated in increasing order). -/
theorem select_minimal_tst_tiebreak (prop : String)
    (data : List (CodePointRange × String)) (repr_size : Nat)
    (default_prop : String) (missing : List (CodePointRange × String))
    (bs : Nat) (hbs : bs ∈ candidate_block_sizes)
    (htie : (TwoStageTable.make prop data bs default_prop missing).table_bytes
        repr_size =
      (select_minimal_tst prop data repr_size default_prop missing).table_bytes
        repr_size) :
    (select_minimal_tst prop data repr_size default_prop missing).blockSize ≤
        bs ∧
      select_minimal_tst prop data repr_size default_prop missing =
        TwoStageTable.make prop data
          (select_minimal_tst prop data repr_size default_prop
            missing).blockSize default_prop missing := by
  have hbs4 : bs = 64 ∨ bs = 128 ∨ bs = 256 ∨ bs = 512 := by
    simpa [candidate_block_sizes] using hbs
  simp only [select_minimal_tst, candidate_block_sizes, List.map_cons,
    List.map_nil, List.foldl_cons, List.foldl_nil] at htie ⊢
  split_ifs at htie ⊢ <;>
    refine ⟨?_, rfl⟩ <;>
    rw [make_blockSize] <;>
    rcases hbs4 with rfl | rfl | rfl | rfl <;>
    omega

theorem select_minimal_tst_tiebreak_witness :
    (select_minimal_tst "Gc" [] 1 "Z" []).blockSize ≤
        (select_minimal_tst "Gc" [] 1 "Z" []).blockSize ∧
      select_minimal_tst "Gc" [] 1 "Z" [] =
        TwoStageTable.make "Gc" []
          (select_minimal_tst "Gc" [] 1 "Z" []).blockSize "Z" [] :=
  select_minimal_tst_tiebreak "Gc" [] 1 "Z" []
    (select_minimal_tst "Gc" [] 1 "Z" []).blockSize
    (select_spec "Gc" [] 1 "Z" []).1
    (congrArg (fun t => TwoStageTable.table_bytes t 1)
      (select_spec "Gc" [] 1 "Z" []).2).symm

/-- C4 counterexample: on an alias table that cannot resolve the token
"Bogus", `data_value_as_abbr` and `patch_data` both return normally and emit
the pair `(range, none)` — the Python code lets `find_key_by_value` fall off
the end and pairs the range with `None` instead of aborting. -/
theorem missing_alias_no_abort_cex :
    data_value_as_abbr [(⟨0, 5⟩, "Bogus")] [("l", "Letter")] =
        [(⟨0, 5⟩, none)] ∧
      patch_data [(⟨0, 5⟩, "Bogus")] [("l", "Letter")] = [(⟨0, 5⟩, none)] :=
  ⟨rfl, rfl⟩

/-- C4 (amended): when a value token has no resolvable short-form alias,
`data_value_as_abbr` and `patch_data` do not abort: they produce an output
pair whose value component is the missing-value placeholder `none`. -/
theorem missing_alias_yields_none (aliases : List (String × String))
    (data : List (CodePointRange × String)) (r : CodePointRange) (v : String)
    (hv : find_key_by_value aliases v = none) (hmem : (r, v) ∈ data) :
    (r, none) ∈ data_value_as_abbr data aliases ∧
      (r, none) ∈ patch_data data aliases := by
  constructor <;>
  · refine List.mem_map.mpr ⟨(r, v), hmem, ?_⟩
    simp [hv]

theorem missing_alias_yields_none_witness :
    (⟨0, 5⟩, none) ∈ data_value_as_abbr [(⟨0, 5⟩, "Bogus")] [("l", "Letter")] ∧
      (⟨0, 5⟩, none) ∈ patch_data [(⟨0, 5⟩, "Bogus")] [("l", "Letter")] :=
  missing_alias_yields_none [("l", "Letter")] [(⟨0, 5⟩, "Bogus")] ⟨0, 5⟩
    "Bogus" (by decide) (by decide)

/-- C5: the pipeline `make_data` followed by `select_minimal_tst` is a pure
function of its input: two runs on identical input data produce identical
Stage-1 sequences, Stage-2 contents (with their first-seen slot-id ordering)
and chosen block size. -/
theorem pipeline_deterministic (prop : String)
    (d1 d2 : List (CodePointRange × String)) (repr_size : Nat) (dflt : String)
    (missing : List (CodePointRange × String)) (h : d1 = d2) :
    (select_minimal_tst prop (make_data d1) repr_size dflt missing).stage1 =
        (select_minimal_tst prop (make_data d2) repr_size dflt missing).stage1 ∧
      (select_minimal_tst prop (make_data d1) repr_size dflt missing).stage2 =
        (select_minimal_tst prop (make_data d2) repr_size dflt missing).stage2 ∧
      (select_minimal_tst prop (make_data d1) repr_size dflt
          missing).blockSize =
        (select_minimal_tst prop (make_data d2) repr_size dflt
          missing).blockSize := by
  subst h
  exact ⟨rfl, rfl, rfl⟩

theorem pipeline_deterministic_witness :
    (select_minimal_tst "Gc" (make_data []) 1 "Z" []).stage1 =
        (select_minimal_tst "Gc" (make_data []) 1 "Z" []).stage1 ∧
      (select_minimal_tst "Gc" (make_data []) 1 "Z" []).stage2 =
        (select_minimal_tst "Gc" (make_data []) 1 "Z" []).stage2 ∧
      (select_minimal_tst "Gc" (make_data []) 1 "Z" []).blockSize =
        (select_minimal_tst "Gc" (make_data []) 1 "Z" []).blockSize :=
  pipeline_deterministic "Gc" [] [] 1 "Z" [] rfl

theorem foldl_ignore_eq_any (cp : Nat) (rs : List CodePointRange) (b : Bool) :
    rs.foldl (fun ig rng => if rng.contains cp then true else ig) b =
      (b || rs.any (fun rng => rng.contains cp)) := by
  induction rs generalizing b with
  | nil => simp
  | cons r rest ih =>
    simp only [List.foldl_cons, List.any_cons]
    by_cases h : r.contains cp = true
    · rw [if_pos h, ih, h]
      simp
    · rw [if_neg h, ih]
      have hf : r.contains cp = false := by simpa using h
      rw [hf]
      simp

/-- C6: `na_table_rs` emits no (code point, name) pair for an input entry
whose code point lies in one of the fixed `derived_na_ranges`, and emits the
pair for every entry outside all of them: the emitted entry list is exactly
the input filtered to entries outside the exclusion ranges. -/
theorem na_table_entries_eq_filter (d : List (CodePointRange × String)) :
    na_table_entries d =
      (d.filter (fun p =>
        !(derived_na_ranges.any (fun rng => rng.contains p.1.start)))).map
        (fun p => (p.1.start, p.2)) := by
  induction d with
  | nil => rfl
  | cons p rest ih =>
    obtain ⟨r, name⟩ := p
    simp only [na_table_entries, foldl_ignore_eq_any, Bool.false_or]
    by_cases h : derived_na_ranges.any (fun rng => rng.contains r.start)
    · simp [h, ih, List.filter_cons]
    · simp [h, ih, List.filter_cons]

/-- C7: the reverse table `RDM_MAP` built by `dm_map_rs` contains no entry
whose source decomposition field carries a compatibility tag, and its entries
are sorted ascending by decomposition string content. -/
theorem rdm_entries_sorted_no_compat (ud : List (Nat × String)) :
    List.Pairwise (fun a b => a.1 ≤ b.1) (rdm_entries ud) ∧
      ∀ p ∈ rdm_entries ud, ∃ q ∈ ud, q.2 ≠ "" ∧
        ¬ startsWithTag q.2 = true ∧ p = (decodeDm q.2, q.1) := by
  constructor
  · unfold rdm_entries
    refine List.Pairwise.imp ?_ (List.sorted_mergeSort ?_ ?_ _)
    · intro a b h
      exact of_decide_eq_true h
    · intro a b c h1 h2
      exact decide_eq_true
        (le_trans (of_decide_eq_true h1) (of_decide_eq_true h2))
    · intro a b
      rcases le_total a.1 b.1 with h | h
      · simp [h]
      · simp [h]
  · intro p hp
    rw [rdm_entries, List.mem_mergeSort] at hp
    rcases List.mem_filterMap.mp hp with ⟨q, hq, hf⟩
    by_cases h1 : q.2 = ""
    · rw [if_pos h1] at hf
      exact absurd hf (by simp)
    · by_cases h2 : startsWithTag q.2 = true
      · rw [if_neg h1, if_pos h2] at hf
        exact absurd hf (by simp)
      · rw [if_neg h1, if_neg h2] at hf
        exact ⟨q, hq, h1, h2, (Option.some.inj hf).symm⟩

theorem pairwise_sort_by_start (l : List (CodePointRange × String)) :
    List.Pairwise (fun a b => a.1.start ≤ b.1.start)
      (l.mergeSort (fun a b => decide (a.1.start ≤ b.1.start))) := by
  refine List.Pairwise.imp ?_ (List.sorted_mergeSort ?_ ?_ _)
  · intro a b h
    exact of_decide_eq_true h
  · intro a b c h1 h2
    exact decide_eq_true
      (le_trans (of_decide_eq_true h1) (of_decide_eq_true h2))
  · intro a b
    rcases le_total a.1.start b.1.start with h | h
    · simp [h]
    · simp [h]

/-- C9: the (range, value) list returned by `make_data`, and each
per-property list returned by `make_grouped_data`, is sorted ascending by
code point range start. -/
theorem make_data_sorted_by_start (d : List (CodePointRange × String))
    (g : List (String × List CodePointRange)) :
    List.Pairwise (fun a b => a.1.start ≤ b.1.start) (make_data d) ∧
      ∀ pl ∈ make_grouped_data g,
        List.Pairwise (fun a b => a.1.start ≤ b.1.start) pl.2 := by
  constructor
  · exact pairwise_sort_by_start d
  · intro pl hpl
    rcases List.mem_map.mp hpl with ⟨q, _, rfl⟩
    exact pairwise_sort_by_start (q.2.map (fun r => (r, "true")))

theorem emoji_flags_from_countP (ps : List String) :
    ∀ i, 0 < i →
      (emoji_emission_flags_from i ps).countP (fun p => p.2) = 0 := by
  induction ps with
  | nil =>
    intro i hi
    rfl
  | cons p rest ih =>
    intro i hi
    simp only [emoji_emission_flags_from]
    rw [List.countP_cons_of_neg]
    · exact ih (i + 1) (by omega)
    · simp only [beq_iff_eq]
      omega

theorem emoji_flags_from_get (ps : List String) :
    ∀ i j (h : j < (emoji_emission_flags_from i ps).length),
      ((emoji_emission_flags_from i ps).get ⟨j, h⟩).2 = ((i + j) == 0) := by
  induction ps with
  | nil =>
    intro i j h
    simp [emoji_emission_flags_from] at h
  | cons p rest ih =>
    intro i j h
    cases j with
    | zero => simp [emoji_emission_flags_from]
    | succ j' =>
      have h' : j' < (emoji_emission_flags_from (i + 1) rest).length := by
        simpa [emoji_emission_flags_from] using h
      show ((emoji_emission_flags_from (i + 1) rest).get ⟨j', h'⟩).2 = _
      rw [ih (i + 1) j' h']
      congr 1
      omega

/-- C8: in the grouped emoji emission loop exactly one routine per
(non-empty) group carries the primary flag `use`, and the routine at
`enumerate` index `j` is flagged iff `j = 0`, i.e. the first routine
emitted. -/
theorem emoji_primary_flag (props : List String) (h : props ≠ []) :
    (emoji_emission_flags props).countP (fun p => p.2) = 1 ∧
      ∀ j (hj : j < (emoji_emission_flags props).length),
        (((emoji_emission_flags props).get ⟨j, hj⟩).2 = true ↔ j = 0) := by
  cases props with
  | nil => exact absurd rfl h
  | cons p ps =>
    constructor
    · show (emoji_emission_flags_from 0 (p :: ps)).countP (fun p => p.2) = 1
      simp only [emoji_emission_flags_from]
      rw [List.countP_cons_of_pos]
      · rw [emoji_flags_from_countP ps 1 (by omega)]
      · rfl
    · intro j hj
      have hj' : j < (emoji_emission_flags_from 0 (p :: ps)).length := hj
      show ((emoji_emission_flags_from 0 (p :: ps)).get ⟨j, hj'⟩).2 = true ↔
        j = 0
      rw [emoji_flags_from_get (p :: ps) 0 j hj']
      simp only [beq_iff_eq]
      omega

theorem emoji_primary_flag_witness :
    (emoji_emission_flags ["Emoji", "EPres"]).countP (fun p => p.2) = 1 ∧
      ∀ j (hj : j < (emoji_emission_flags ["Emoji", "EPres"]).length),
        (((emoji_emission_flags ["Emoji", "EPres"]).get ⟨j, hj⟩).2 = true ↔
          j = 0) :=
  emoji_primary_flag ["Emoji", "EPres"] (by simp)

/-- C10: the forward/reverse decomposition tables are not a round trip: a
compatibility-tagged entry is emitted into `DM_MAP` with its tag stripped,
while `RDM_MAP` skips it, so its decomposition string maps back to nothing. -/
theorem dm_rdm_not_roundtrip :
    (0x2460, "1") ∈ dm_map_entries [(0x2460, "<circle> 0031")] ∧
      ("1", 0x2460) ∉ rdm_entries [(0x2460, "<circle> 0031")] := by
  constructor
  · decide
  · intro hmem
    rw [rdm_entries, List.mem_mergeSort] at hmem
    revert hmem
    decide

end UcdTool
